import Mathlib

/-!
# Verification of the OrderedMessage treap and the client dispatch layer

Shallow embedding of `src/td/telegram/OrderedMessage.cpp`: the
`OrderedMessages` treap (insert, erase, adjacency attachment, range and
date queries) and the `ClientManager::Impl` dispatch layer (pool sizing,
invalid-client error synthesis).  Message identifiers are modelled as
natural numbers (the non-negative `int64` payload of `MessageId`), the
32-bit `random_y` as an integer reduced mod `2^32` and reinterpreted as a
signed value.  Fatal `CHECK`/`UNREACHABLE` aborts are modelled by
returning `none`.
-/

/-- Reinterpret a value in `[0, 2^32)` as a signed 32-bit integer. -/
def toInt32 (n : ℕ) : ℤ :=
  if n < 2 ^ 31 then (n : ℤ) else (n : ℤ) - 2 ^ 32

/-- `random_y` derivation from `OrderedMessages::insert` (line 14):
`static_cast<int32>(static_cast<uint32>(message_id.get() * 2101234567u))`. -/
def randomY (message_id : ℕ) : ℤ :=
  toInt32 ((message_id * 2101234567) % 2 ^ 32)

/-- Modelled from the spec: `MessageId::is_valid`.  The header defining
`MessageId` is not part of the sources; the spec states that a
default-constructed `MessageId()` is invalid.  We model the default
`MessageId()` as `0` and validity as being non-zero. -/
def msgIdValid (message_id : ℕ) : Bool :=
  message_id != 0

/-- The largest representable `MessageId` (the maximum non-negative
`int64` payload). -/
def maxMessageId : ℕ := 2 ^ 63 - 1

/-- A (sub)tree of `OrderedMessage` nodes; `leaf` stands for a null
`unique_ptr`.  Fields follow the `OrderedMessage` struct:
`message_id`, `random_y`, `have_previous`, `have_next`, `left`, `right`. -/
inductive OrderedMessage where
  | leaf
  | node (left : OrderedMessage) (message_id : ℕ) (random_y : ℤ)
      (have_previous : Bool) (have_next : Bool) (right : OrderedMessage)
deriving DecidableEq, Repr

namespace OrderedMessages

open OrderedMessage

/-- In-order list of the message identifiers stored in the tree. -/
def keysList : OrderedMessage → List ℕ
  | .leaf => []
  | .node l k _ _ _ r => keysList l ++ k :: keysList r

/-- The split loop inside `OrderedMessages::insert` (lines 30-46): thread
the displaced subtree into the part with keys `< message_id` (left spine)
and the part with keys `≥ message_id` (right spine). -/
def split (t : OrderedMessage) (message_id : ℕ) : OrderedMessage × OrderedMessage :=
  match t with
  | .leaf => (.leaf, .leaf)
  | .node l k y hp hn r =>
    if k < message_id then
      let p := split r message_id
      (.node l k y hp hn p.1, p.2)
    else
      let p := split l message_id
      (p.1, .node p.2 k y hp hn r)

/-- `OrderedMessages::insert` descent at a fixed `random_y` (lines 16-47):
walk down while the current node's `random_y` is at least the new one's,
aborting (`UNREACHABLE`, modelled as `none`) on a duplicate key; then
split the displaced subtree and root the fresh node (adjacency flags
default to `false`) over the two parts. -/
def insertAux (t : OrderedMessage) (message_id : ℕ) (y : ℤ) : Option OrderedMessage :=
  match t with
  | .leaf => some (.node .leaf message_id y false false .leaf)
  | .node l k yk hp hn r =>
    if y ≤ yk then
      if k < message_id then
        (insertAux r message_id y).map (fun r' => .node l k yk hp hn r')
      else if k = message_id then
        none
      else
        (insertAux l message_id y).map (fun l' => .node l' k yk hp hn r)
    else
      let p := split (.node l k yk hp hn r) message_id
      some (.node p.1 message_id y false false p.2)

/-- `OrderedMessages::insert` (lines 13-49). -/
def insert (t : OrderedMessage) (message_id : ℕ) : Option OrderedMessage :=
  insertAux t message_id (randomY message_id)

/-- Size measure used for the termination of `meld`. -/
def size : OrderedMessage → ℕ
  | .leaf => 0
  | .node l _ _ _ _ r => size l + size r + 1

/-- The meld loop inside `OrderedMessages::erase` (lines 68-78): combine
the two children of the removed node, repeatedly promoting whichever root
has the strictly greater `random_y` (ties keep the left root). -/
def meld : OrderedMessage → OrderedMessage → OrderedMessage
  | .leaf, r => r
  | l, .leaf => l
  | .node ll lk ly lhp lhn lr, .node rl rk ry rhp rhn rr =>
    if ry > ly then
      .node (meld (.node ll lk ly lhp lhn lr) rl) rk ry rhp rhn rr
    else
      .node ll lk ly lhp lhn (meld lr (.node rl rk ry rhp rhn rr))
termination_by l r => size l + size r
decreasing_by
  all_goals simp [size]
  all_goals omega

/-- `OrderedMessages::erase` (lines 51-80): locate the node by key
(aborting, `CHECK(result != nullptr)`, when absent) and replace it by the
meld of its children. -/
def erase (t : OrderedMessage) (message_id : ℕ) : Option OrderedMessage :=
  match t with
  | .leaf => none
  | .node l k y hp hn r =>
    if k < message_id then
      (erase r message_id).map (fun r' => .node l k y hp hn r')
    else if message_id < k then
      (erase l message_id).map (fun l' => .node l' k y hp hn r)
    else
      some (meld l r)

/-- `OrderedMessages::do_find_older_messages` (lines 174-187): in-order
walk collecting identifiers `≤ max_message_id`; the right subtree is
visited only when the current node qualifies. -/
def findOlderMessages (t : OrderedMessage) (max_message_id : ℕ) : List ℕ :=
  match t with
  | .leaf => []
  | .node l k _ _ _ r =>
    findOlderMessages l max_message_id ++
      (if k ≤ max_message_id then k :: findOlderMessages r max_message_id else [])

/-- `OrderedMessages::do_find_newer_messages` (lines 195-208): in-order
walk collecting identifiers `> min_message_id`; the left subtree is
visited only when the current node qualifies. -/
def findNewerMessages (t : OrderedMessage) (min_message_id : ℕ) : List ℕ :=
  match t with
  | .leaf => []
  | .node l k _ _ _ r =>
    (if min_message_id < k then findNewerMessages l min_message_id ++ [k] else []) ++
      findNewerMessages r min_message_id

/-- `OrderedMessages::do_find_message_by_date` (lines 216-233): if the
current node's date exceeds the target, search the left subtree;
otherwise prefer a valid hit in the right subtree and fall back to the
current node.  A null tree yields the invalid `MessageId()`, modelled
as `0`. -/
def findMessageByDate (t : OrderedMessage) (date : ℤ) (get_message_date : ℕ → ℤ) : ℕ :=
  match t with
  | .leaf => 0
  | .node l k _ _ _ r =>
    if get_message_date k > date then
      findMessageByDate l date get_message_date
    else
      if msgIdValid (findMessageByDate r date get_message_date) then
        findMessageByDate r date get_message_date
      else k

/-- `OrderedMessages::do_find_messages_by_date` (lines 240-257). -/
def findMessagesByDate (t : OrderedMessage) (min_date max_date : ℤ)
    (get_message_date : ℕ → ℤ) : List ℕ :=
  match t with
  | .leaf => []
  | .node l k _ _ _ r =>
    let d := get_message_date k
    (if d ≥ min_date then
      findMessagesByDate l min_date max_date get_message_date ++
        (if d ≤ max_date then [k] else [])
    else []) ++
      (if d ≤ max_date then findMessagesByDate r min_date max_date get_message_date else [])

/-- Modelled from the spec: `get_iterator` (declared in the missing
`OrderedMessage.h`) positions an iterator at `message_id` or, when
absent, at its greatest predecessor.  Returns that node's
`(message_id, have_previous, have_next)`. -/
def iterPrevNode (t : OrderedMessage) (message_id : ℕ) : Option (ℕ × Bool × Bool) :=
  match t with
  | .leaf => none
  | .node l k _ hp hn r =>
    if k ≤ message_id then
      some ((iterPrevNode r message_id).getD (k, hp, hn))
    else
      iterPrevNode l message_id

/-- Modelled from the spec: iterator decrement (`--it`) moves to the
in-order predecessor, i.e. the greatest node with key strictly below
`message_id`.  Returns that node's `(message_id, have_previous,
have_next)`. -/
def predNode (t : OrderedMessage) (message_id : ℕ) : Option (ℕ × Bool × Bool) :=
  match t with
  | .leaf => none
  | .node l k _ hp hn r =>
    if k < message_id then
      some ((predNode r message_id).getD (k, hp, hn))
    else
      predNode l message_id

/-- The successor search inside `OrderedMessages::auto_attach_message`
(lines 152-161): descend from the root keeping the last node whose key is
not below `message_id`.  Returns that node's `(message_id,
have_previous)`. -/
def findSuccNode (t : OrderedMessage) (message_id : ℕ) : Option (ℕ × Bool) :=
  match t with
  | .leaf => none
  | .node l k _ hp _ r =>
    if k < message_id then
      findSuccNode r message_id
    else
      some ((findSuccNode l message_id).getD (k, hp))

/-- Set the `have_previous` flag of the node holding `message_id`,
navigating by key comparison. -/
def setHavePrevious (t : OrderedMessage) (message_id : ℕ) : OrderedMessage :=
  match t with
  | .leaf => .leaf
  | .node l k y hp hn r =>
    if k < message_id then .node l k y hp hn (setHavePrevious r message_id)
    else if message_id < k then .node (setHavePrevious l message_id) k y hp hn r
    else .node l k y true hn r

/-- Set the `have_next` flag of the node holding `message_id`, navigating
by key comparison. -/
def setHaveNext (t : OrderedMessage) (message_id : ℕ) : OrderedMessage :=
  match t with
  | .leaf => .leaf
  | .node l k y hp hn r =>
    if k < message_id then .node l k y hp hn (setHaveNext r message_id)
    else if message_id < k then .node (setHaveNext l message_id) k y hp hn r
    else .node l k y hp true r

/-- `OrderedMessages::attach_message_to_previous` (lines 82-100), with the
iterator modelled from the spec.  `CHECK`/`LOG_CHECK` failures are
`none`.  The node's `have_previous` is set first; then the in-order
predecessor's `have_next` is consulted: when already set the node inherits
`have_next`, otherwise the predecessor's `have_next` is set. -/
def attachMessageToPrevious (t : OrderedMessage) (message_id : ℕ) : Option OrderedMessage :=
  if msgIdValid message_id = false then none
  else
    match iterPrevNode t message_id with
    | none => none
    | some (k, hp, _) =>
      if k ≠ message_id then none
      else if hp then some t
      else
        let t1 := setHavePrevious t message_id
        match predNode t1 message_id with
        | none => none
        | some (p, _, phn) =>
          if phn then some (setHaveNext t1 message_id) else some (setHaveNext t1 p)

/-- The `{have_previous, have_next}` pair returned by
`auto_attach_message`. -/
structure AttachInfo where
  have_previous : Bool
  have_next : Bool
deriving DecidableEq, Repr

/-- The successor half of `auto_attach_message` (lines 150-171): when the
message is not yet-unsent and a successor exists, assert that the
successor has no previous neighbour (`CHECK`, modelled as `none`) and
report `{successor.have_previous, true}` without mutating; otherwise
report `{false, false}`. -/
def autoAttachNext (t : OrderedMessage) (message_id : ℕ)
    (is_yet_unsent : Bool) : Option (AttachInfo × OrderedMessage) :=
  if is_yet_unsent then some (⟨false, false⟩, t)
  else
    match findSuccNode t message_id with
    | some (_, shp) => if shp then none else some (⟨shp, true⟩, t)
    | none => some (⟨false, false⟩, t)

/-- `OrderedMessages::auto_attach_message` (lines 122-172).  The iterator
is modelled from the spec, and the `is_yet_unsent` property of
`message_id` is passed as a boolean (the `MessageId` header is not among
the sources).  The predecessor branch reports `{true, P.have_next}` and
sets `P.have_next`; otherwise the successor branch applies. -/
def autoAttachMessage (t : OrderedMessage) (message_id last_message_id : ℕ)
    (is_yet_unsent : Bool) : Option (AttachInfo × OrderedMessage) :=
  match iterPrevNode t message_id with
  | some (p, _, phn) =>
    if ¬ p < message_id then none
    else if phn || (msgIdValid last_message_id && decide (last_message_id ≤ p)) then
      some (⟨true, phn⟩, setHaveNext t p)
    else
      autoAttachNext t message_id is_yet_unsent
  | none => autoAttachNext t message_id is_yet_unsent

/-- Search-order invariant: keys under `left` are strictly below the
node's key, keys under `right` strictly above. -/
def isBST : OrderedMessage → Bool
  | .leaf => true
  | .node l k _ _ _ r =>
    (keysList l).all (fun x => x < k) && (keysList r).all (fun x => k < x) &&
      isBST l && isBST r

/-- `random_y` of the root of a subtree is at most the given bound
(vacuously true for a null child). -/
def rootYLe : OrderedMessage → ℤ → Bool
  | .leaf, _ => true
  | .node _ _ y _ _ _, b => y ≤ b

/-- Max-heap invariant on `random_y`: every node's `random_y` is at least
each child's. -/
def heapOK : OrderedMessage → Bool
  | .leaf => true
  | .node l _ y _ _ r => rootYLe l y && rootYLe r y && heapOK l && heapOK r

/-- Every node stores the `random_y` derived from its own key. -/
def yConsistent : OrderedMessage → Bool
  | .leaf => true
  | .node l k y _ _ r => (y = randomY k : Bool) && yConsistent l && yConsistent r

/-- The bundle of structural invariants maintained by the container. -/
def Good (t : OrderedMessage) : Prop :=
  isBST t = true ∧ heapOK t = true ∧ yConsistent t = true

/-- Read the `(have_previous, have_next)` flags of the node holding
`message_id`, navigating by key comparison. -/
def nodeFlags (t : OrderedMessage) (message_id : ℕ) : Option (Bool × Bool) :=
  match t with
  | .leaf => none
  | .node l k _ hp hn r =>
    if k < message_id then nodeFlags r message_id
    else if message_id < k then nodeFlags l message_id
    else some (hp, hn)

/-- A mutation on the container: `insert` or `erase` of a message id. -/
inductive Op where
  | ins (message_id : ℕ)
  | del (message_id : ℕ)
deriving DecidableEq, Repr

/-- The message id an operation acts on. -/
def opMessageId : Op → ℕ
  | .ins message_id => message_id
  | .del message_id => message_id

/-- Apply one operation, propagating aborts. -/
def applyOp (t : OrderedMessage) : Op → Option OrderedMessage
  | .ins message_id => insert t message_id
  | .del message_id => erase t message_id

/-- Apply a sequence of operations, propagating aborts. -/
def applyOps : List Op → OrderedMessage → Option OrderedMessage
  | [], t => some t
  | op :: rest, t => (applyOp t op).bind (applyOps rest)

/-- Reference model: the same operation sequence on a finite set, failing
on duplicate insertion or missing erase. -/
def modelRun : List Op → Finset ℕ → Option (Finset ℕ)
  | [], s => some s
  | .ins message_id :: rest, s =>
    if message_id ∈ s then none else modelRun rest (Insert.insert message_id s)
  | .del message_id :: rest, s =>
    if message_id ∈ s then modelRun rest (s.erase message_id) else none

end OrderedMessages

/-- Modelled from the spec: `td::clamp(value, min_value, max_value)` from
the utility headers (not among the sources) restricts `value` to
`[min_value, max_value]`. -/
def clampNat (value min_value max_value : ℕ) : ℕ :=
  if value < min_value then min_value
  else if value > max_value then max_value
  else value

/-- The worker-pool slot count fixed on first use, from
`MultiImplPool::get` (line 704):
`clamp(thread::hardware_concurrency(), 8u, 1000u) * 5 / 4`. -/
def multiImplPoolSize (hardware_concurrency : ℕ) : ℕ :=
  clampNat hardware_concurrency 8 1000 * 5 / 4

/-- The slot count the spec sentence describes:
`clamp(hardware_concurrency * 5 / 4, 8, 1000)`. -/
def specPoolSize (hardware_concurrency : ℕ) : ℕ :=
  clampNat (hardware_concurrency * 5 / 4) 8 1000

/-- Response payload: a result object, an error object or null (the
termination sentinel). -/
inductive TdObject where
  | result (payload : ℕ)
  | error (code : ℤ) (message : String)
  | null
deriving DecidableEq, Repr

/-- `ClientManager::Response`: `{client_id, request_id, object}`. -/
structure Response where
  client_id : ℕ
  request_id : ℕ
  object : TdObject
deriving DecidableEq, Repr

/-- State of `ClientManager::Impl`: the client-to-worker binding map
`impls_` (workers named by numbers), the receiver's output queue, and the
requests forwarded so far to bound workers. -/
structure ClientManagerImpl where
  impls : List (ℕ × ℕ)
  outputQueue : List Response
  forwarded : List (ℕ × ℕ × ℕ)
deriving DecidableEq, Repr

/-- `ClientManager::Impl::send` (lines 734-743): look the client up in
`impls_`; when absent, enqueue a synthesized error response (code 400,
"Invalid TDLib instance specified") into the receiver's output queue;
otherwise forward the request to the bound worker. -/
def ClientManagerImpl.send (s : ClientManagerImpl)
    (client_id request_id request : ℕ) : ClientManagerImpl :=
  match s.impls.lookup client_id with
  | none =>
    { s with
      outputQueue := s.outputQueue ++
        [⟨client_id, request_id, TdObject.error 400 "Invalid TDLib instance specified"⟩] }
  | some _ =>
    { s with forwarded := s.forwarded ++ [(client_id, request_id, request)] }

namespace OrderedMessages

open OrderedMessage

lemma mem_keysList_node {x k : ℕ} {y : ℤ} {hp hn : Bool} {l r : OrderedMessage} :
    x ∈ keysList (.node l k y hp hn r) ↔ x ∈ keysList l ∨ x = k ∨ x ∈ keysList r := by
  simp [keysList]

lemma isBST_node_iff {k : ℕ} {y : ℤ} {hp hn : Bool} {l r : OrderedMessage} :
    isBST (.node l k y hp hn r) = true ↔
      (∀ x ∈ keysList l, x < k) ∧ (∀ x ∈ keysList r, k < x) ∧
        isBST l = true ∧ isBST r = true := by
  simp [isBST, List.all_eq_true, and_assoc]

lemma heapOK_node_iff {k : ℕ} {y : ℤ} {hp hn : Bool} {l r : OrderedMessage} :
    heapOK (.node l k y hp hn r) = true ↔
      rootYLe l y = true ∧ rootYLe r y = true ∧ heapOK l = true ∧ heapOK r = true := by
  simp [heapOK, and_assoc]

lemma yConsistent_node_iff {k : ℕ} {y : ℤ} {hp hn : Bool} {l r : OrderedMessage} :
    yConsistent (.node l k y hp hn r) = true ↔
      y = randomY k ∧ yConsistent l = true ∧ yConsistent r = true := by
  simp [yConsistent, and_assoc]

lemma rootYLe_mono {t : OrderedMessage} {b b' : ℤ} (h : rootYLe t b = true)
    (hb : b ≤ b') : rootYLe t b' = true := by
  cases t with
  | leaf => rfl
  | node l k y hp hn r =>
    simp only [rootYLe, decide_eq_true_eq] at h ⊢
    omega

lemma keysList_pairwise {t : OrderedMessage} (h : isBST t = true) :
    (keysList t).Pairwise (· < ·) := by
  induction t with
  | leaf => simp [keysList]
  | node l k y hp hn r ihl ihr =>
    rw [isBST_node_iff] at h
    obtain ⟨hl, hr, hbl, hbr⟩ := h
    rw [keysList, List.pairwise_append]
    refine ⟨ihl hbl, ?_, ?_⟩
    · exact List.pairwise_cons.mpr ⟨hr, ihr hbr⟩
    · intro x hx z hz
      rcases List.mem_cons.mp hz with rfl | hz
      · exact hl x hx
      · exact lt_trans (hl x hx) (hr z hz)

lemma keys_y_le {t : OrderedMessage} {b : ℤ} {x : ℕ} (hh : heapOK t = true)
    (hc : yConsistent t = true) (hb : rootYLe t b = true) (hx : x ∈ keysList t) :
    randomY x ≤ b := by
  induction t with
  | leaf => simp [keysList] at hx
  | node l k y hp hn r ihl ihr =>
    rw [heapOK_node_iff] at hh
    rw [yConsistent_node_iff] at hc
    obtain ⟨hyl, hyr, hhl, hhr⟩ := hh
    obtain ⟨hy, hcl, hcr⟩ := hc
    have hyb : y ≤ b := by simpa [rootYLe] using hb
    rcases mem_keysList_node.mp hx with hx | rfl | hx
    · exact ihl hhl hcl (rootYLe_mono hyl hyb) hx
    · omega
    · exact ihr hhr hcr (rootYLe_mono hyr hyb) hx

lemma split_spec {t : OrderedMessage} {m : ℕ} (hb : isBST t = true) :
    isBST (split t m).1 = true ∧ isBST (split t m).2 = true ∧
      (∀ x, x ∈ keysList (split t m).1 ↔ x ∈ keysList t ∧ x < m) ∧
      (∀ x, x ∈ keysList (split t m).2 ↔ x ∈ keysList t ∧ m ≤ x) := by
  induction t with
  | leaf => simp [split, keysList, isBST]
  | node l k y hp hn r ihl ihr =>
    rw [isBST_node_iff] at hb
    obtain ⟨hl, hr, hbl, hbr⟩ := hb
    by_cases hk : k < m
    · obtain ⟨ih1, ih2, ih3, ih4⟩ := ihr hbr
      simp only [split, if_pos hk]
      refine ⟨?_, ih2, ?_, ?_⟩
      · rw [isBST_node_iff]
        exact ⟨hl, fun x hx => hr x ((ih3 x).mp hx).1, hbl, ih1⟩
      · intro x
        rw [mem_keysList_node, ih3 x, mem_keysList_node]
        constructor
        · rintro (hx | rfl | ⟨hx, hxm⟩)
          · exact ⟨Or.inl hx, lt_trans (hl x hx) hk⟩
          · exact ⟨Or.inr (Or.inl rfl), hk⟩
          · exact ⟨Or.inr (Or.inr hx), hxm⟩
        · rintro ⟨hx | rfl | hx, hxm⟩
          · exact Or.inl hx
          · exact Or.inr (Or.inl rfl)
          · exact Or.inr (Or.inr ⟨hx, hxm⟩)
      · intro x
        rw [ih4 x, mem_keysList_node]
        constructor
        · rintro ⟨hx, hmx⟩
          exact ⟨Or.inr (Or.inr hx), hmx⟩
        · rintro ⟨hx | rfl | hx, hmx⟩
          · exact absurd (lt_trans (hl x hx) hk) (by omega)
          · omega
          · exact ⟨hx, hmx⟩
    · obtain ⟨ih1, ih2, ih3, ih4⟩ := ihl hbl
      simp only [split, if_neg hk]
      refine ⟨ih1, ?_, ?_, ?_⟩
      · rw [isBST_node_iff]
        exact ⟨fun x hx => hl x ((ih4 x).mp hx).1, hr, ih2, hbr⟩
      · intro x
        rw [ih3 x, mem_keysList_node]
        constructor
        · rintro ⟨hx, hxm⟩
          exact ⟨Or.inl hx, hxm⟩
        · rintro ⟨hx | rfl | hx, hxm⟩
          · exact ⟨hx, hxm⟩
          · omega
          · exact absurd (hr x hx) (by omega)
      · intro x
        rw [mem_keysList_node, ih4 x, mem_keysList_node]
        constructor
        · rintro (⟨hx, hmx⟩ | rfl | hx)
          · exact ⟨Or.inl hx, hmx⟩
          · exact ⟨Or.inr (Or.inl rfl), by omega⟩
          · exact ⟨Or.inr (Or.inr hx), by have := hr x hx; omega⟩
        · rintro ⟨hx | rfl | hx, hmx⟩
          · exact Or.inl ⟨hx, hmx⟩
          · exact Or.inr (Or.inl rfl)
          · exact Or.inr (Or.inr hx)

lemma split_heap {t : OrderedMessage} {m : ℕ} (hh : heapOK t = true) :
    heapOK (split t m).1 = true ∧ heapOK (split t m).2 = true ∧
      ∀ b, rootYLe t b = true →
        rootYLe (split t m).1 b = true ∧ rootYLe (split t m).2 b = true := by
  induction t with
  | leaf => simp [split, rootYLe, heapOK]
  | node l k y hp hn r ihl ihr =>
    rw [heapOK_node_iff] at hh
    obtain ⟨hyl, hyr, hhl, hhr⟩ := hh
    by_cases hk : k < m
    · obtain ⟨ih1, ih2, ih3⟩ := ihr hhr
      simp only [split, if_pos hk]
      refine ⟨?_, ih2, ?_⟩
      · rw [heapOK_node_iff]
        exact ⟨hyl, (ih3 y hyr).1, hhl, ih1⟩
      · intro b hb
        have hyb : y ≤ b := by simpa [rootYLe] using hb
        exact ⟨by simp [rootYLe]; omega, (ih3 b (rootYLe_mono hyr hyb)).2⟩
    · obtain ⟨ih1, ih2, ih3⟩ := ihl hhl
      simp only [split, if_neg hk]
      refine ⟨ih1, ?_, ?_⟩
      · rw [heapOK_node_iff]
        exact ⟨(ih3 y hyl).2, hyr, ih2, hhr⟩
      · intro b hb
        have hyb : y ≤ b := by simpa [rootYLe] using hb
        exact ⟨(ih3 b (rootYLe_mono hyl hyb)).1, by simp [rootYLe]; omega⟩

lemma split_yCons {t : OrderedMessage} {m : ℕ} (hc : yConsistent t = true) :
    yConsistent (split t m).1 = true ∧ yConsistent (split t m).2 = true := by
  induction t with
  | leaf => simp [split, yConsistent]
  | node l k y hp hn r ihl ihr =>
    rw [yConsistent_node_iff] at hc
    obtain ⟨hy, hcl, hcr⟩ := hc
    by_cases hk : k < m
    · obtain ⟨ih1, ih2⟩ := ihr hcr
      simp only [split, if_pos hk]
      exact ⟨by rw [yConsistent_node_iff]; exact ⟨hy, hcl, ih1⟩, ih2⟩
    · obtain ⟨ih1, ih2⟩ := ihl hcl
      simp only [split, if_neg hk]
      exact ⟨ih1, by rw [yConsistent_node_iff]; exact ⟨hy, ih2, hcr⟩⟩

set_option maxHeartbeats 1000000 in
lemma insertAux_spec {t : OrderedMessage} {m : ℕ} {y : ℤ} (hb : isBST t = true)
    (hh : heapOK t = true) (hm : m ∉ keysList t) :
    ∃ t', insertAux t m y = some t' ∧ isBST t' = true ∧ heapOK t' = true ∧
      (∀ x, x ∈ keysList t' ↔ x ∈ keysList t ∨ x = m) ∧
      (yConsistent t = true → y = randomY m → yConsistent t' = true) ∧
      (∀ b, rootYLe t b = true → y ≤ b → rootYLe t' b = true) := by
  induction t with
  | leaf =>
    refine ⟨.node .leaf m y false false .leaf, rfl, ?_, ?_, ?_, ?_, ?_⟩
    · simp [isBST, keysList]
    · simp [heapOK, rootYLe]
    · simp [keysList]
    · intro _ hy
      simp [yConsistent, hy]
    · intro b _ hy
      simp only [rootYLe, decide_eq_true_eq]
      omega
  | node l k yk hp hn r ihl ihr =>
    have hbn := hb
    rw [isBST_node_iff] at hbn
    obtain ⟨hl, hr, hbl, hbr⟩ := hbn
    have hhn := hh
    rw [heapOK_node_iff] at hhn
    obtain ⟨hyl, hyr, hhl, hhr⟩ := hhn
    rw [mem_keysList_node, not_or, not_or] at hm
    obtain ⟨hml, hmk, hmr⟩ := hm
    by_cases hyk : y ≤ yk
    · by_cases hkm : k < m
      · obtain ⟨r', hsome, hb', hh', hk', hc', hy'⟩ := ihr hbr hhr hmr
        refine ⟨.node l k yk hp hn r', ?_, ?_, ?_, ?_, ?_, ?_⟩
        · simp [insertAux, if_pos hyk, if_pos hkm, hsome]
        · rw [isBST_node_iff]
          refine ⟨hl, ?_, hbl, hb'⟩
          intro x hx
          rcases (hk' x).mp hx with hx | rfl
          · exact hr x hx
          · exact hkm
        · rw [heapOK_node_iff]
          exact ⟨hyl, hy' yk hyr hyk, hhl, hh'⟩
        · intro x
          rw [mem_keysList_node, mem_keysList_node, hk' x]
          tauto
        · intro hc hy
          rw [yConsistent_node_iff] at hc ⊢
          exact ⟨hc.1, hc.2.1, hc' hc.2.2 hy⟩
        · intro b hb0 _
          simpa [rootYLe] using hb0
      · by_cases hekm : k = m
        · exact absurd hekm.symm hmk
        · have hmk' : m < k := by omega
          obtain ⟨l', hsome, hb', hh', hk', hc', hy'⟩ := ihl hbl hhl hml
          refine ⟨.node l' k yk hp hn r, ?_, ?_, ?_, ?_, ?_, ?_⟩
          · simp [insertAux, if_pos hyk, if_neg hkm, if_neg hekm, hsome]
          · rw [isBST_node_iff]
            refine ⟨?_, hr, hb', hbr⟩
            intro x hx
            rcases (hk' x).mp hx with hx | rfl
            · exact hl x hx
            · exact hmk'
          · rw [heapOK_node_iff]
            exact ⟨hy' yk hyl hyk, hyr, hh', hhr⟩
          · intro x
            rw [mem_keysList_node, mem_keysList_node, hk' x]
            tauto
          · intro hc hy
            rw [yConsistent_node_iff] at hc ⊢
            exact ⟨hc.1, hc' hc.2.1 hy, hc.2.2⟩
          · intro b hb0 _
            simpa [rootYLe] using hb0
    · obtain ⟨hs1, hs2, hs3, hs4⟩ := split_spec (m := m) hb
      obtain ⟨hp1, hp2, hp3⟩ := split_heap (m := m) hh
      have hroot : rootYLe (.node l k yk hp hn r) y = true := by
        simp only [rootYLe, decide_eq_true_eq]
        omega
      refine ⟨.node (split (.node l k yk hp hn r) m).1 m y false false
          (split (.node l k yk hp hn r) m).2, ?_, ?_, ?_, ?_, ?_, ?_⟩
      · simp [insertAux, if_neg hyk]
      · rw [isBST_node_iff]
        refine ⟨fun x hx => ((hs3 x).mp hx).2, ?_, hs1, hs2⟩
        intro x hx
        obtain ⟨hxt, hmx⟩ := (hs4 x).mp hx
        rcases eq_or_lt_of_le hmx with rfl | h
        · rw [mem_keysList_node] at hxt
          tauto
        · exact h
      · rw [heapOK_node_iff]
        obtain ⟨hq1, hq2⟩ := hp3 y hroot
        exact ⟨hq1, hq2, hp1, hp2⟩
      · intro x
        rw [mem_keysList_node, hs3 x, hs4 x]
        constructor
        · rintro (⟨hx, _⟩ | rfl | ⟨hx, _⟩)
          · exact Or.inl hx
          · exact Or.inr rfl
          · exact Or.inl hx
        · rintro (hx | rfl)
          · rcases lt_or_le x m with h | h
            · exact Or.inl ⟨hx, h⟩
            · exact Or.inr (Or.inr ⟨hx, h⟩)
          · exact Or.inr (Or.inl rfl)
      · intro hc hy
        obtain ⟨hc1, hc2⟩ := split_yCons (m := m) hc
        rw [yConsistent_node_iff]
        exact ⟨hy, hc1, hc2⟩
      · intro b _ hyb
        simp only [rootYLe, decide_eq_true_eq]
        omega

lemma insertAux_dup {t : OrderedMessage} {m : ℕ} (hb : isBST t = true)
    (hh : heapOK t = true) (hc : yConsistent t = true) (hm : m ∈ keysList t) :
    insertAux t m (randomY m) = none := by
  induction t with
  | leaf => simp [keysList] at hm
  | node l k yk hp hn r ihl ihr =>
    have hbn := hb
    rw [isBST_node_iff] at hbn
    obtain ⟨hl, hr, hbl, hbr⟩ := hbn
    rw [heapOK_node_iff] at hh
    obtain ⟨hyl, hyr, hhl, hhr⟩ := hh
    rw [yConsistent_node_iff] at hc
    obtain ⟨hy, hcl, hcr⟩ := hc
    have hroot : rootYLe (.node l k yk hp hn r) yk = true := by
      simp [rootYLe]
    have hyk : randomY m ≤ yk := by
      refine keys_y_le ?_ ?_ hroot hm
      · rw [heapOK_node_iff]
        exact ⟨hyl, hyr, hhl, hhr⟩
      · rw [yConsistent_node_iff]
        exact ⟨hy, hcl, hcr⟩
    by_cases hkm : k < m
    · have hmr : m ∈ keysList r := by
        rcases mem_keysList_node.mp hm with hx | rfl | hx
        · exact absurd (hl m hx) (by omega)
        · omega
        · exact hx
      simp [insertAux, if_pos hyk, if_pos hkm, ihr hbr hhr hcr hmr]
    · by_cases hekm : k = m
      · simp [insertAux, if_pos hyk, if_neg hkm, hekm]
      · have hml : m ∈ keysList l := by
          rcases mem_keysList_node.mp hm with hx | rfl | hx
          · exact hx
          · omega
          · exact absurd (hr m hx) (by omega)
        simp [insertAux, if_pos hyk, if_neg hkm, if_neg hekm, ihl hbl hhl hcl hml]

lemma insert_spec {t : OrderedMessage} {m : ℕ} (hg : Good t) (hm : m ∉ keysList t) :
    ∃ t', insert t m = some t' ∧ Good t' ∧
      ∀ x, x ∈ keysList t' ↔ x ∈ keysList t ∨ x = m := by
  obtain ⟨hb, hh, hc⟩ := hg
  obtain ⟨t', hsome, hb', hh', hk', hc', _⟩ :=
    insertAux_spec (y := randomY m) hb hh hm
  exact ⟨t', hsome, ⟨hb', hh', hc' hc rfl⟩, hk'⟩

lemma insert_dup {t : OrderedMessage} {m : ℕ} (hg : Good t) (hm : m ∈ keysList t) :
    insert t m = none := by
  obtain ⟨hb, hh, hc⟩ := hg
  exact insertAux_dup hb hh hc hm

lemma meld_keysList (l r : OrderedMessage) :
    keysList (meld l r) = keysList l ++ keysList r := by
  match l, r with
  | .leaf, r => simp [meld, keysList]
  | .node ll lk ly lhp lhn lr, .leaf => simp [meld, keysList]
  | .node ll lk ly lhp lhn lr, .node rl rk ry rhp rhn rr =>
    rw [meld]
    by_cases h : ry > ly
    · rw [if_pos h, keysList, meld_keysList (.node ll lk ly lhp lhn lr) rl]
      simp [keysList]
    · rw [if_neg h, keysList, meld_keysList lr (.node rl rk ry rhp rhn rr)]
      simp [keysList]
termination_by size l + size r
decreasing_by all_goals simp [size]; omega

lemma meld_rootYLe {l r : OrderedMessage} {b : ℤ} (hl : rootYLe l b = true)
    (hr : rootYLe r b = true) : rootYLe (meld l r) b = true := by
  cases l with
  | leaf => simpa [meld] using hr
  | node ll lk ly lhp lhn lr =>
    cases r with
    | leaf => simpa [meld] using hl
    | node rl rk ry rhp rhn rr =>
      rw [meld]
      by_cases h : ry > ly
      · rw [if_pos h]
        simpa [rootYLe] using hr
      · rw [if_neg h]
        simpa [rootYLe] using hl

lemma meld_isBST (l r : OrderedMessage) : isBST l = true → isBST r = true →
    (∀ x ∈ keysList l, ∀ z ∈ keysList r, x < z) → isBST (meld l r) = true := by
  match l, r with
  | .leaf, r =>
    intro _ hbr _
    simpa [meld] using hbr
  | .node ll lk ly lhp lhn lr, .leaf =>
    intro hbl _ _
    simpa [meld] using hbl
  | .node ll lk ly lhp lhn lr, .node rl rk ry rhp rhn rr =>
    intro hbl hbr hsep
    rw [meld]
    rw [isBST_node_iff] at hbl hbr
    obtain ⟨hll, hlr, hbll, hblr⟩ := hbl
    obtain ⟨hrl, hrr, hbrl, hbrr⟩ := hbr
    by_cases h : ry > ly
    · rw [if_pos h, isBST_node_iff]
      refine ⟨?_, hrr, ?_, hbrr⟩
      · intro x hx
        rw [meld_keysList, List.mem_append] at hx
        rcases hx with hx | hx
        · exact hsep x hx rk (mem_keysList_node.mpr (Or.inr (Or.inl rfl)))
        · exact hrl x hx
      · refine meld_isBST (.node ll lk ly lhp lhn lr) rl ?_ hbrl ?_
        · rw [isBST_node_iff]
          exact ⟨hll, hlr, hbll, hblr⟩
        · intro x hx z hz
          exact hsep x hx z (mem_keysList_node.mpr (Or.inl hz))
    · rw [if_neg h, isBST_node_iff]
      refine ⟨hll, ?_, hbll, ?_⟩
      · intro x hx
        rw [meld_keysList, List.mem_append] at hx
        rcases hx with hx | hx
        · exact hlr x hx
        · exact hsep lk (mem_keysList_node.mpr (Or.inr (Or.inl rfl))) x hx
      · refine meld_isBST lr (.node rl rk ry rhp rhn rr) hblr ?_ ?_
        · rw [isBST_node_iff]
          exact ⟨hrl, hrr, hbrl, hbrr⟩
        · intro x hx z hz
          exact hsep x (mem_keysList_node.mpr (Or.inr (Or.inr hx))) z hz
termination_by size l + size r
decreasing_by all_goals simp [size]; omega

lemma meld_heapOK (l r : OrderedMessage) : heapOK l = true → heapOK r = true →
    heapOK (meld l r) = true := by
  match l, r with
  | .leaf, r =>
    intro _ hhr
    simpa [meld] using hhr
  | .node ll lk ly lhp lhn lr, .leaf =>
    intro hhl _
    simpa [meld] using hhl
  | .node ll lk ly lhp lhn lr, .node rl rk ry rhp rhn rr =>
    intro hhl hhr
    rw [meld]
    rw [heapOK_node_iff] at hhl hhr
    obtain ⟨hyll, hylr, hhll, hhlr⟩ := hhl
    obtain ⟨hyrl, hyrr, hhrl, hhrr⟩ := hhr
    by_cases h : ry > ly
    · rw [if_pos h, heapOK_node_iff]
      refine ⟨?_, hyrr, ?_, hhrr⟩
      · exact meld_rootYLe (by simp [rootYLe]; omega) hyrl
      · refine meld_heapOK (.node ll lk ly lhp lhn lr) rl ?_ hhrl
        rw [heapOK_node_iff]
        exact ⟨hyll, hylr, hhll, hhlr⟩
    · rw [if_neg h, heapOK_node_iff]
      refine ⟨hyll, ?_, hhll, ?_⟩
      · exact meld_rootYLe hylr (by simp [rootYLe]; omega)
      · refine meld_heapOK lr (.node rl rk ry rhp rhn rr) hhlr ?_
        rw [heapOK_node_iff]
        exact ⟨hyrl, hyrr, hhrl, hhrr⟩
termination_by size l + size r
decreasing_by all_goals simp [size]; omega

lemma meld_yCons (l r : OrderedMessage) : yConsistent l = true →
    yConsistent r = true → yConsistent (meld l r) = true := by
  match l, r with
  | .leaf, r =>
    intro _ hcr
    simpa [meld] using hcr
  | .node ll lk ly lhp lhn lr, .leaf =>
    intro hcl _
    simpa [meld] using hcl
  | .node ll lk ly lhp lhn lr, .node rl rk ry rhp rhn rr =>
    intro hcl hcr
    rw [meld]
    rw [yConsistent_node_iff] at hcl hcr
    obtain ⟨hyl, hcll, hclr⟩ := hcl
    obtain ⟨hyr, hcrl, hcrr⟩ := hcr
    by_cases h : ry > ly
    · rw [if_pos h, yConsistent_node_iff]
      refine ⟨hyr, ?_, hcrr⟩
      refine meld_yCons (.node ll lk ly lhp lhn lr) rl ?_ hcrl
      rw [yConsistent_node_iff]
      exact ⟨hyl, hcll, hclr⟩
    · rw [if_neg h, yConsistent_node_iff]
      refine ⟨hyl, hcll, ?_⟩
      refine meld_yCons lr (.node rl rk ry rhp rhn rr) hclr ?_
      rw [yConsistent_node_iff]
      exact ⟨hyr, hcrl, hcrr⟩
termination_by size l + size r
decreasing_by all_goals simp [size]; omega

lemma erase_spec {t : OrderedMessage} {m : ℕ} (hb : isBST t = true)
    (hm : m ∈ keysList t) :
    ∃ t', erase t m = some t' ∧ isBST t' = true ∧
      (∀ x, x ∈ keysList t' ↔ x ∈ keysList t ∧ x ≠ m) ∧
      (heapOK t = true → heapOK t' = true ∧
        ∀ b, rootYLe t b = true → rootYLe t' b = true) ∧
      (yConsistent t = true → yConsistent t' = true) := by
  induction t with
  | leaf => simp [keysList] at hm
  | node l k y hp hn r ihl ihr =>
    have hbn := hb
    rw [isBST_node_iff] at hbn
    obtain ⟨hl, hr, hbl, hbr⟩ := hbn
    by_cases hkm : k < m
    · have hmr : m ∈ keysList r := by
        rcases mem_keysList_node.mp hm with hx | rfl | hx
        · exact absurd (hl m hx) (by omega)
        · omega
        · exact hx
      obtain ⟨r', hsome, hb', hk', hh', hc'⟩ := ihr hbr hmr
      refine ⟨.node l k y hp hn r', ?_, ?_, ?_, ?_, ?_⟩
      · simp [erase, if_pos hkm, hsome]
      · rw [isBST_node_iff]
        exact ⟨hl, fun x hx => hr x ((hk' x).mp hx).1, hbl, hb'⟩
      · intro x
        rw [mem_keysList_node, mem_keysList_node, hk' x]
        constructor
        · rintro (hx | rfl | ⟨hx, hne⟩)
          · exact ⟨Or.inl hx, by have := hl x hx; omega⟩
          · exact ⟨Or.inr (Or.inl rfl), by omega⟩
          · exact ⟨Or.inr (Or.inr hx), hne⟩
        · rintro ⟨hx | rfl | hx, hne⟩
          · exact Or.inl hx
          · exact Or.inr (Or.inl rfl)
          · exact Or.inr (Or.inr ⟨hx, hne⟩)
      · intro hh
        rw [heapOK_node_iff] at hh
        obtain ⟨hyl, hyr, hhl, hhr⟩ := hh
        obtain ⟨hh2, hy'⟩ := hh' hhr
        refine ⟨?_, ?_⟩
        · rw [heapOK_node_iff]
          exact ⟨hyl, hy' y hyr, hhl, hh2⟩
        · intro b hb0
          simpa [rootYLe] using hb0
      · intro hc
        rw [yConsistent_node_iff] at hc ⊢
        exact ⟨hc.1, hc.2.1, hc' hc.2.2⟩
    · by_cases hmk : m < k
      · have hml : m ∈ keysList l := by
          rcases mem_keysList_node.mp hm with hx | rfl | hx
          · exact hx
          · omega
          · exact absurd (hr m hx) (by omega)
        obtain ⟨l', hsome, hb', hk', hh', hc'⟩ := ihl hbl hml
        refine ⟨.node l' k y hp hn r, ?_, ?_, ?_, ?_, ?_⟩
        · simp [erase, if_neg hkm, if_pos hmk, hsome]
        · rw [isBST_node_iff]
          exact ⟨fun x hx => hl x ((hk' x).mp hx).1, hr, hb', hbr⟩
        · intro x
          rw [mem_keysList_node, mem_keysList_node, hk' x]
          constructor
          · rintro (⟨hx, hne⟩ | rfl | hx)
            · exact ⟨Or.inl hx, hne⟩
            · exact ⟨Or.inr (Or.inl rfl), by omega⟩
            · exact ⟨Or.inr (Or.inr hx), by have := hr x hx; omega⟩
          · rintro ⟨hx | rfl | hx, hne⟩
            · exact Or.inl ⟨hx, hne⟩
            · exact Or.inr (Or.inl rfl)
            · exact Or.inr (Or.inr hx)
        · intro hh
          rw [heapOK_node_iff] at hh
          obtain ⟨hyl, hyr, hhl, hhr⟩ := hh
          obtain ⟨hh2, hy'⟩ := hh' hhl
          refine ⟨?_, ?_⟩
          · rw [heapOK_node_iff]
            exact ⟨hy' y hyl, hyr, hh2, hhr⟩
          · intro b hb0
            simpa [rootYLe] using hb0
        · intro hc
          rw [yConsistent_node_iff] at hc ⊢
          exact ⟨hc.1, hc' hc.2.1, hc.2.2⟩
      · have hkem : k = m := by omega
        subst hkem
        refine ⟨meld l r, ?_, ?_, ?_, ?_, ?_⟩
        · simp [erase]
        · exact meld_isBST l r hbl hbr fun x hx z hz => lt_trans (hl x hx) (hr z hz)
        · intro x
          rw [meld_keysList, List.mem_append, mem_keysList_node]
          constructor
          · rintro (hx | hx)
            · exact ⟨Or.inl hx, by have := hl x hx; omega⟩
            · exact ⟨Or.inr (Or.inr hx), by have := hr x hx; omega⟩
          · rintro ⟨hx | rfl | hx, hne⟩
            · exact Or.inl hx
            · omega
            · exact Or.inr hx
        · intro hh
          rw [heapOK_node_iff] at hh
          obtain ⟨hyl, hyr, hhl, hhr⟩ := hh
          refine ⟨meld_heapOK l r hhl hhr, ?_⟩
          intro b hb0
          have hyb : y ≤ b := by simpa [rootYLe] using hb0
          exact meld_rootYLe (rootYLe_mono hyl hyb) (rootYLe_mono hyr hyb)
        · intro hc
          rw [yConsistent_node_iff] at hc
          exact meld_yCons l r hc.2.1 hc.2.2

lemma erase_absent {t : OrderedMessage} {m : ℕ} (hb : isBST t = true)
    (hm : m ∉ keysList t) : erase t m = none := by
  induction t with
  | leaf => rfl
  | node l k y hp hn r ihl ihr =>
    rw [isBST_node_iff] at hb
    obtain ⟨hl, hr, hbl, hbr⟩ := hb
    rw [mem_keysList_node, not_or, not_or] at hm
    obtain ⟨hml, hmk, hmr⟩ := hm
    by_cases hkm : k < m
    · simp [erase, if_pos hkm, ihr hbr hmr]
    · by_cases hmk' : m < k
      · simp [erase, if_neg hkm, if_pos hmk', ihl hbl hml]
      · omega

lemma erase_good {t : OrderedMessage} {m : ℕ} (hg : Good t) (hm : m ∈ keysList t) :
    ∃ t', erase t m = some t' ∧ Good t' ∧
      ∀ x, x ∈ keysList t' ↔ x ∈ keysList t ∧ x ≠ m := by
  obtain ⟨hb, hh, hc⟩ := hg
  obtain ⟨t', hsome, hb', hk', hh', hc'⟩ := erase_spec hb hm
  exact ⟨t', hsome, ⟨hb', (hh' hh).1, hc' hc⟩, hk'⟩

lemma applyOps_sim : ∀ (ops : List Op) (t t' : OrderedMessage) (s : Finset ℕ),
    Good t → (∀ x, x ∈ keysList t ↔ x ∈ s) → applyOps ops t = some t' →
    ∃ s', modelRun ops s = some s' ∧ Good t' ∧
      (∀ x, x ∈ keysList t' ↔ x ∈ s') ∧
      (∀ x, x ∈ s' → x ∈ s ∨ Op.ins x ∈ ops) := by
  intro ops
  induction ops with
  | nil =>
    intro t t' s hg hk h
    rw [applyOps] at h
    cases h
    exact ⟨s, rfl, hg, hk, fun x hx => Or.inl hx⟩
  | cons op rest ih =>
    intro t t' s hg hk h
    rw [applyOps] at h
    cases op with
    | ins m =>
      cases hsome : insert t m with
      | none =>
        rw [applyOp, hsome] at h
        cases h
      | some t1 =>
        rw [applyOp, hsome, Option.some_bind] at h
        have hmem : m ∉ keysList t := by
          intro hmem
          rw [insert_dup hg hmem] at hsome
          cases hsome
        obtain ⟨t1', hsome', hg1, hk1⟩ := insert_spec hg hmem
        rw [hsome] at hsome'
        cases hsome'
        have hms : m ∉ s := fun hin => hmem ((hk m).mpr hin)
        have hkeys : ∀ x, x ∈ keysList t1 ↔ x ∈ Insert.insert m s := by
          intro x
          rw [hk1 x, Finset.mem_insert, hk x]
          tauto
        obtain ⟨s', hrun, hg', hk', hsub⟩ := ih t1 t' (Insert.insert m s) hg1 hkeys h
        refine ⟨s', ?_, hg', hk', ?_⟩
        · rw [modelRun, if_neg hms]
          exact hrun
        · intro x hx
          rcases hsub x hx with hx' | hx'
          · rcases Finset.mem_insert.mp hx' with rfl | hx2
            · exact Or.inr (List.mem_cons_self _ _)
            · exact Or.inl hx2
          · exact Or.inr (List.mem_cons_of_mem _ hx')
    | del m =>
      cases hsome : erase t m with
      | none =>
        rw [applyOp, hsome] at h
        cases h
      | some t1 =>
        rw [applyOp, hsome, Option.some_bind] at h
        have hmem : m ∈ keysList t := by
          by_contra hmem
          rw [erase_absent hg.1 hmem] at hsome
          cases hsome
        obtain ⟨t1', hsome', hg1, hk1⟩ := erase_good hg hmem
        rw [hsome] at hsome'
        cases hsome'
        have hms : m ∈ s := (hk m).mp hmem
        have hkeys : ∀ x, x ∈ keysList t1 ↔ x ∈ s.erase m := by
          intro x
          rw [hk1 x, Finset.mem_erase, hk x]
          tauto
        obtain ⟨s', hrun, hg', hk', hsub⟩ := ih t1 t' (s.erase m) hg1 hkeys h
        refine ⟨s', ?_, hg', hk', ?_⟩
        · rw [modelRun, if_pos hms]
          exact hrun
        · intro x hx
          rcases hsub x hx with hx' | hx'
          · exact Or.inl (Finset.mem_of_mem_erase hx')
          · exact Or.inr (List.mem_cons_of_mem _ hx')

lemma findOlder_eq_filter {t : OrderedMessage} {m : ℕ} (hb : isBST t = true) :
    findOlderMessages t m = (keysList t).filter (fun x => decide (x ≤ m)) := by
  induction t with
  | leaf => rfl
  | node l k y hp hn r ihl ihr =>
    rw [isBST_node_iff] at hb
    obtain ⟨hl, hr, hbl, hbr⟩ := hb
    rw [findOlderMessages, keysList, List.filter_append, ihl hbl]
    by_cases hk : k ≤ m
    · rw [if_pos hk, ihr hbr, List.filter_cons]
      simp [hk]
    · rw [if_neg hk]
      have hnil : (keysList r).filter (fun x => decide (x ≤ m)) = [] := by
        rw [List.filter_eq_nil_iff]
        intro a ha
        have := hr a ha
        simp only [decide_eq_true_eq]
        omega
      rw [List.filter_cons]
      simp [hk, hnil]

lemma findNewer_eq_filter {t : OrderedMessage} {m : ℕ} (hb : isBST t = true) :
    findNewerMessages t m = (keysList t).filter (fun x => decide (m < x)) := by
  induction t with
  | leaf => rfl
  | node l k y hp hn r ihl ihr =>
    rw [isBST_node_iff] at hb
    obtain ⟨hl, hr, hbl, hbr⟩ := hb
    rw [findNewerMessages, keysList, List.filter_append, ihr hbr]
    by_cases hk : m < k
    · rw [if_pos hk, ihl hbl, List.filter_cons]
      simp [hk]
    · rw [if_neg hk]
      have hnil : (keysList l).filter (fun x => decide (m < x)) = [] := by
        rw [List.filter_eq_nil_iff]
        intro a ha
        have := hl a ha
        simp only [decide_eq_true_eq]
        omega
      rw [List.filter_cons]
      simp [hk, hnil]

/-- Claim C5: after any sequence of valid inserts and erases starting from
the empty container, every node's left descendants have strictly smaller
message ids and right descendants strictly greater, and every node's
`random_y` is at least each child's (max-heap order). -/
theorem treap_invariants_preserved (ops : List Op) (t : OrderedMessage)
    (h : applyOps ops .leaf = some t) : isBST t = true ∧ heapOK t = true := by
  obtain ⟨s', _, hg', _, _⟩ :=
    applyOps_sim ops .leaf t ∅ ⟨rfl, rfl, rfl⟩ (by simp [keysList]) h
  exact ⟨hg'.1, hg'.2.1⟩

/-- Witness for C5 at the sequence insert 10, insert 20. -/
theorem treap_invariants_preserved_witness :
    isBST (.node .leaf 10 (-462490810) false false
        (.node .leaf 20 (-924981620) false false .leaf)) = true ∧
      heapOK (.node .leaf 10 (-462490810) false false
        (.node .leaf 20 (-924981620) false false .leaf)) = true :=
  treap_invariants_preserved [Op.ins 10, Op.ins 20]
    (.node .leaf 10 (-462490810) false false
      (.node .leaf 20 (-924981620) false false .leaf)) (by decide)

/-- Claim C8: on a container satisfying the treap invariants, `insert`
reaches the fatal abort exactly when the message id is already present,
and `erase` exactly when it is absent; on valid arguments neither
aborts. -/
theorem insert_erase_abort_characterization (t : OrderedMessage) (m : ℕ)
    (hg : Good t) :
    (insert t m = none ↔ m ∈ keysList t) ∧
      (erase t m = none ↔ m ∉ keysList t) := by
  constructor
  · constructor
    · intro hnone
      by_contra hmem
      obtain ⟨t', hsome, _, _⟩ := insert_spec hg hmem
      rw [hsome] at hnone
      cases hnone
    · exact insert_dup hg
  · constructor
    · intro hnone hmem
      obtain ⟨t', hsome, _, _⟩ := erase_good hg hmem
      rw [hsome] at hnone
      cases hnone
    · exact erase_absent hg.1

/-- Witness for C8 at a concrete singleton container. -/
theorem insert_erase_abort_characterization_witness :
    (insert (.node .leaf 5 1916238243 false false .leaf) 5 = none ↔
        5 ∈ keysList (.node .leaf 5 1916238243 false false .leaf)) ∧
      (erase (.node .leaf 5 1916238243 false false .leaf) 5 = none ↔
        5 ∉ keysList (.node .leaf 5 1916238243 false false .leaf)) :=
  insert_erase_abort_characterization _ 5 ⟨by decide, by decide, by decide⟩

/-- Claim C4: after any valid interleaving of inserts and erases starting
from the empty container, `find_older_messages` at the maximum message id
returns exactly the set of currently-inserted ids in strictly ascending
order. -/
theorem find_older_set_semantics (ops : List Op) (t : OrderedMessage)
    (h : applyOps ops .leaf = some t)
    (hids : (ops.all fun op => decide (opMessageId op ≤ maxMessageId)) = true) :
    ∃ s : Finset ℕ, modelRun ops ∅ = some s ∧
      (findOlderMessages t maxMessageId).Pairwise (· < ·) ∧
      ∀ x, x ∈ findOlderMessages t maxMessageId ↔ x ∈ s := by
  obtain ⟨s', hrun, hg', hk', hsub⟩ :=
    applyOps_sim ops .leaf t ∅ ⟨rfl, rfl, rfl⟩ (by simp [keysList]) h
  have hb := hg'.1
  have hle : ∀ x ∈ keysList t, x ≤ maxMessageId := by
    intro x hx
    rcases hsub x ((hk' x).mp hx) with hx' | hx'
    · simp at hx'
    · rw [List.all_eq_true] at hids
      simpa [opMessageId] using hids _ hx'
  refine ⟨s', hrun, ?_, ?_⟩
  · rw [findOlder_eq_filter hb]
    exact (keysList_pairwise hb).filter _
  · intro x
    rw [findOlder_eq_filter hb, List.mem_filter]
    constructor
    · rintro ⟨hx, _⟩
      exact (hk' x).mp hx
    · intro hx
      refine ⟨(hk' x).mpr hx, ?_⟩
      simpa using hle x ((hk' x).mpr hx)

/-- Witness for C4 at the sequence insert 5, insert 2. -/
theorem find_older_set_semantics_witness :
    ∃ s : Finset ℕ, modelRun [Op.ins 5, Op.ins 2] ∅ = some s ∧
      (findOlderMessages (.node (.node .leaf 2 (-92498162) false false .leaf)
        5 1916238243 false false .leaf) maxMessageId).Pairwise (· < ·) ∧
      ∀ x, x ∈ findOlderMessages (.node (.node .leaf 2 (-92498162) false false .leaf)
        5 1916238243 false false .leaf) maxMessageId ↔ x ∈ s :=
  find_older_set_semantics [Op.ins 5, Op.ins 2]
    (.node (.node .leaf 2 (-92498162) false false .leaf)
      5 1916238243 false false .leaf) (by decide) (by decide)

/-- Claim C6: for a container satisfying the search-order invariant,
`find_older_messages(x)` and `find_newer_messages(x)` partition the stored
set: every stored id is in exactly one of the two lists, ids `≤ x` in the
older list and ids `> x` in the newer list. -/
theorem range_query_partition (t : OrderedMessage) (x : ℕ) (hb : isBST t = true) :
    (∀ k, k ∈ keysList t ↔
        k ∈ findOlderMessages t x ∨ k ∈ findNewerMessages t x) ∧
      (∀ k, ¬(k ∈ findOlderMessages t x ∧ k ∈ findNewerMessages t x)) ∧
      (∀ k ∈ keysList t, (k ≤ x → k ∈ findOlderMessages t x) ∧
        (x < k → k ∈ findNewerMessages t x)) := by
  have ho := findOlder_eq_filter (m := x) hb
  have hn := findNewer_eq_filter (m := x) hb
  refine ⟨?_, ?_, ?_⟩
  · intro k
    rw [ho, hn, List.mem_filter, List.mem_filter]
    constructor
    · intro hk
      rcases le_or_lt k x with h | h
      · exact Or.inl ⟨hk, by simpa using h⟩
      · exact Or.inr ⟨hk, by simpa using h⟩
    · rintro (⟨hk, _⟩ | ⟨hk, _⟩) <;> exact hk
  · rintro k ⟨h1, h2⟩
    rw [ho, List.mem_filter] at h1
    rw [hn, List.mem_filter] at h2
    simp only [decide_eq_true_eq] at h1 h2
    omega
  · intro k hk
    constructor
    · intro hle
      rw [ho, List.mem_filter]
      exact ⟨hk, by simpa using hle⟩
    · intro hlt
      rw [hn, List.mem_filter]
      exact ⟨hk, by simpa using hlt⟩

/-- Witness for C6 at a three-node container and boundary `x = 2`. -/
theorem range_query_partition_witness :
    (∀ k, k ∈ keysList (.node (.node .leaf 1 5 false false .leaf) 2 9
        false false (.node .leaf 3 1 false false .leaf)) ↔
        k ∈ findOlderMessages (.node (.node .leaf 1 5 false false .leaf) 2 9
          false false (.node .leaf 3 1 false false .leaf)) 2 ∨
        k ∈ findNewerMessages (.node (.node .leaf 1 5 false false .leaf) 2 9
          false false (.node .leaf 3 1 false false .leaf)) 2) ∧
      (∀ k, ¬(k ∈ findOlderMessages (.node (.node .leaf 1 5 false false .leaf) 2 9
          false false (.node .leaf 3 1 false false .leaf)) 2 ∧
        k ∈ findNewerMessages (.node (.node .leaf 1 5 false false .leaf) 2 9
          false false (.node .leaf 3 1 false false .leaf)) 2)) ∧
      (∀ k ∈ keysList (.node (.node .leaf 1 5 false false .leaf) 2 9
          false false (.node .leaf 3 1 false false .leaf)),
        (k ≤ 2 → k ∈ findOlderMessages (.node (.node .leaf 1 5 false false .leaf) 2 9
          false false (.node .leaf 3 1 false false .leaf)) 2) ∧
        (2 < k → k ∈ findNewerMessages (.node (.node .leaf 1 5 false false .leaf) 2 9
          false false (.node .leaf 3 1 false false .leaf)) 2)) :=
  range_query_partition (.node (.node .leaf 1 5 false false .leaf) 2 9
    false false (.node .leaf 3 1 false false .leaf)) 2 (by decide)

/-- Claim C10: with an empty date window (`min_date > max_date`),
`find_messages_by_date` returns the empty list for every tree and date
function. -/
theorem find_messages_by_date_empty_range (t : OrderedMessage)
    (min_date max_date : ℤ) (gd : ℕ → ℤ) (h : max_date < min_date) :
    findMessagesByDate t min_date max_date gd = [] := by
  induction t with
  | leaf => rfl
  | node l k y hp hn r ihl ihr =>
    rw [findMessagesByDate]
    by_cases h1 : gd k ≥ min_date
    · have h2 : ¬ gd k ≤ max_date := by omega
      simp [h1, h2, ihl]
    · by_cases h2 : gd k ≤ max_date
      · simp [h1, h2, ihr]
      · simp [h1, h2]

/-- Witness for C10 at a concrete singleton container and window (10, 5). -/
theorem find_messages_by_date_empty_range_witness :
    findMessagesByDate (.node .leaf 1 0 false false .leaf) 10 5
      (fun _ => 7) = [] :=
  find_messages_by_date_empty_range (.node .leaf 1 0 false false .leaf)
    10 5 (fun _ => 7) (by decide)

lemma iterPrevNode_mem {t : OrderedMessage} {m p : ℕ} {php phn : Bool}
    (h : iterPrevNode t m = some (p, php, phn)) : p ∈ keysList t ∧ p ≤ m := by
  induction t generalizing p php phn with
  | leaf => cases h
  | node l k y hp hn r ihl ihr =>
    rw [iterPrevNode] at h
    by_cases hk : k ≤ m
    · rw [if_pos hk] at h
      injection h with h'
      cases hr : iterPrevNode r m with
      | none =>
        rw [hr, Option.getD_none] at h'
        obtain ⟨rfl, -⟩ := Prod.mk.injEq .. ▸ h'
        exact ⟨mem_keysList_node.mpr (Or.inr (Or.inl rfl)), hk⟩
      | some q =>
        rw [hr, Option.getD_some] at h'
        subst h'
        obtain ⟨h1, h2⟩ := ihr hr
        exact ⟨mem_keysList_node.mpr (Or.inr (Or.inr h1)), h2⟩
    · rw [if_neg hk] at h
      obtain ⟨h1, h2⟩ := ihl h
      exact ⟨mem_keysList_node.mpr (Or.inl h1), h2⟩

/-- Claim C2 counterexample: the singleton container holding only the node
7 with `have_previous` already set, at `message_id = 3` with an invalid
`last_message_id`.  The message is absent, no strictly smaller element is
present, it is not yet-unsent and the successor 7 exists — yet
`auto_attach_message` aborts at `CHECK(!next_message->have_previous)`
(line 163) instead of returning `{false, true}`. -/
theorem auto_attach_successor_check_counterexample :
    autoAttachMessage (.node .leaf 7 0 true false .leaf) 3 0 false = none ∧
      ¬ autoAttachMessage (.node .leaf 7 0 true false .leaf) 3 0 false =
        some (⟨false, true⟩, .node .leaf 7 0 true false .leaf) := by
  decide

/-- Claim C2 amended: for every tree state and absent `message_id` such
that the predecessor found by the iterator (if any) fails the
predecessor-attachment condition
(`have_next || (last_message_id valid && id >= last_message_id)`), when
the message is not yet-unsent, a successor exists and that successor's
`have_previous` flag is clear (the code asserts this via `CHECK`),
`auto_attach_message` returns `{have_previous := false, have_next :=
true}` and leaves every node of the tree unchanged. -/
theorem auto_attach_successor_no_mutation (t : OrderedMessage)
    (message_id last_message_id s : ℕ)
    (hnotin : message_id ∉ keysList t)
    (hpred : (iterPrevNode t message_id).all
      (fun q => !q.2.2 &&
        !(msgIdValid last_message_id && decide (last_message_id ≤ q.1))) = true)
    (hsucc : findSuccNode t message_id = some (s, false)) :
    autoAttachMessage t message_id last_message_id false =
      some (⟨false, true⟩, t) := by
  have hnext : autoAttachNext t message_id false = some (⟨false, true⟩, t) := by
    rw [autoAttachNext, hsucc]
    simp
  rw [autoAttachMessage]
  cases hip : iterPrevNode t message_id with
  | none => exact hnext
  | some q =>
    obtain ⟨p, php, phn⟩ := q
    rw [hip] at hpred
    simp only [Option.all, Bool.and_eq_true, Bool.not_eq_true'] at hpred
    obtain ⟨hphn, hlast⟩ := hpred
    have hmem := iterPrevNode_mem hip
    have hplt : p < message_id := by
      rcases Nat.lt_or_ge p message_id with h | h
      · exact h
      · exact absurd (le_antisymm hmem.2 h ▸ hmem.1) hnotin
    dsimp only
    rw [if_neg (not_not_intro hplt), hphn, hlast]
    simpa using hnext

/-- Witness for C2: container {5, 7} with all flags clear, `message_id =
6` (predecessor 5 present but failing the attachment condition, invalid
`last_message_id`), successor 7. -/
theorem auto_attach_successor_no_mutation_witness :
    autoAttachMessage (.node .leaf 5 0 false false
        (.node .leaf 7 0 false false .leaf)) 6 0 false =
      some (⟨false, true⟩, .node .leaf 5 0 false false
        (.node .leaf 7 0 false false .leaf)) :=
  auto_attach_successor_no_mutation
    (.node .leaf 5 0 false false (.node .leaf 7 0 false false .leaf))
    6 0 7 (by decide) (by decide) (by decide)

lemma findMessageByDate_spec {t : OrderedMessage} {d : ℤ} {gd : ℕ → ℤ}
    (hb : isBST t = true)
    (hv : ∀ k ∈ keysList t, 0 < k)
    (hm : (keysList t).Pairwise fun a b => gd a ≤ gd b) :
    (findMessageByDate t d gd = 0 ∧ ∀ k ∈ keysList t, d < gd k) ∨
      (findMessageByDate t d gd ∈ keysList t ∧
        gd (findMessageByDate t d gd) ≤ d ∧
        ∀ k ∈ keysList t, gd k ≤ d → k ≤ findMessageByDate t d gd) := by
  induction t with
  | leaf => exact Or.inl ⟨rfl, by simp [keysList]⟩
  | node l k y hp hn r ihl ihr =>
    have hbn := hb
    rw [isBST_node_iff] at hbn
    obtain ⟨hl, hr, hbl, hbr⟩ := hbn
    rw [keysList, List.pairwise_append] at hm
    obtain ⟨hml, hmkr, _⟩ := hm
    rw [List.pairwise_cons] at hmkr
    obtain ⟨hk_r, hmr⟩ := hmkr
    have hvl : ∀ z ∈ keysList l, 0 < z :=
      fun z hz => hv z (mem_keysList_node.mpr (Or.inl hz))
    have hvr : ∀ z ∈ keysList r, 0 < z :=
      fun z hz => hv z (mem_keysList_node.mpr (Or.inr (Or.inr hz)))
    by_cases hd : gd k > d
    · rw [findMessageByDate, if_pos hd]
      rcases ihl hbl hvl hml with ⟨h0, hall⟩ | ⟨hmem, hle, hgreat⟩
      · refine Or.inl ⟨h0, ?_⟩
        intro z hz
        rcases mem_keysList_node.mp hz with hz | rfl | hz
        · exact hall z hz
        · omega
        · have := hk_r z hz
          omega
      · refine Or.inr ⟨mem_keysList_node.mpr (Or.inl hmem), hle, ?_⟩
        intro z hz hzle
        rcases mem_keysList_node.mp hz with hz | rfl | hz
        · exact hgreat z hz hzle
        · omega
        · exact absurd hzle (by have := hk_r z hz; omega)
    · push_neg at hd
      rw [findMessageByDate, if_neg (by omega)]
      rcases ihr hbr hvr hmr with ⟨h0, hall⟩ | ⟨hmem, hle, hgreat⟩
      · rw [h0]
        simp only [msgIdValid, bne_self_eq_false, Bool.false_eq_true, if_false]
        refine Or.inr ⟨mem_keysList_node.mpr (Or.inr (Or.inl rfl)), hd, ?_⟩
        intro z hz hzle
        rcases mem_keysList_node.mp hz with hz | rfl | hz
        · exact le_of_lt (hl z hz)
        · exact le_refl z
        · exact absurd hzle (by have := hall z hz; omega)
      · have hval : msgIdValid (findMessageByDate r d gd) = true := by
          have := hvr _ hmem
          simp only [msgIdValid, bne_iff_ne, ne_eq]
          omega
        rw [hval]
        simp only [if_true]
        refine Or.inr ⟨mem_keysList_node.mpr (Or.inr (Or.inr hmem)), hle, ?_⟩
        intro z hz hzle
        rcases mem_keysList_node.mp hz with hz | rfl | hz
        · have hzk := hl z hz
          have := hr _ hmem
          omega
        · exact le_of_lt (hr _ hmem)
        · exact hgreat z hz hzle

/-- Claim C7: with a date function monotone over the stored (valid) ids,
`find_message_by_date(d)` returns the greatest stored id whose date is at
most `d`, and the invalid id `0` when there is none. -/
theorem find_message_by_date_greatest (t : OrderedMessage) (d : ℤ) (gd : ℕ → ℤ)
    (hb : isBST t = true) (hv : ∀ k ∈ keysList t, 0 < k)
    (hm : (keysList t).Pairwise fun a b => gd a ≤ gd b) :
    ((∃ k ∈ keysList t, gd k ≤ d) →
      findMessageByDate t d gd ∈ keysList t ∧
        gd (findMessageByDate t d gd) ≤ d ∧
        ∀ k ∈ keysList t, gd k ≤ d → k ≤ findMessageByDate t d gd) ∧
      ((∀ k ∈ keysList t, d < gd k) → findMessageByDate t d gd = 0) := by
  rcases findMessageByDate_spec hb hv hm with ⟨h0, hall⟩ | ⟨hmem, hle, hgreat⟩
  · constructor
    · rintro ⟨k, hk, hkd⟩
      exact absurd hkd (not_le.mpr (hall k hk))
    · intro _
      exact h0
  · constructor
    · intro _
      exact ⟨hmem, hle, hgreat⟩
    · intro hnone
      exact absurd hle (not_le.mpr (hnone _ hmem))

/-- Witness for C7 at ids 1, 2, 3 with dates 100, 200, 300 and target 250. -/
theorem find_message_by_date_greatest_witness :
    ((∃ k ∈ keysList (.node (.node .leaf 1 5 false false .leaf) 2 9
        false false (.node .leaf 3 1 false false .leaf)),
        (fun k : ℕ => 100 * (k : ℤ)) k ≤ 250) →
      findMessageByDate (.node (.node .leaf 1 5 false false .leaf) 2 9
          false false (.node .leaf 3 1 false false .leaf)) 250
          (fun k : ℕ => 100 * (k : ℤ)) ∈
        keysList (.node (.node .leaf 1 5 false false .leaf) 2 9
          false false (.node .leaf 3 1 false false .leaf)) ∧
        (fun k : ℕ => 100 * (k : ℤ))
          (findMessageByDate (.node (.node .leaf 1 5 false false .leaf) 2 9
            false false (.node .leaf 3 1 false false .leaf)) 250
            (fun k : ℕ => 100 * (k : ℤ))) ≤ 250 ∧
        ∀ k ∈ keysList (.node (.node .leaf 1 5 false false .leaf) 2 9
          false false (.node .leaf 3 1 false false .leaf)),
          (fun k : ℕ => 100 * (k : ℤ)) k ≤ 250 →
            k ≤ findMessageByDate (.node (.node .leaf 1 5 false false .leaf) 2 9
              false false (.node .leaf 3 1 false false .leaf)) 250
              (fun k : ℕ => 100 * (k : ℤ))) ∧
      ((∀ k ∈ keysList (.node (.node .leaf 1 5 false false .leaf) 2 9
          false false (.node .leaf 3 1 false false .leaf)),
          (250 : ℤ) < (fun k : ℕ => 100 * (k : ℤ)) k) →
        findMessageByDate (.node (.node .leaf 1 5 false false .leaf) 2 9
          false false (.node .leaf 3 1 false false .leaf)) 250
          (fun k : ℕ => 100 * (k : ℤ)) = 0) :=
  find_message_by_date_greatest (.node (.node .leaf 1 5 false false .leaf) 2 9
      false false (.node .leaf 3 1 false false .leaf)) 250
    (fun k : ℕ => 100 * (k : ℤ)) (by decide) (by decide) (by decide)

/-- Claim C1 counterexample: insert 10, 20, 30 into the empty container,
attach 20 to its predecessor, then attach 30.  Node 30 ends with
`have_previous = true` but `have_next = false`: the second call does not
set 30's `have_next`, because 20's `have_next` is read before being
set. -/
theorem adjacency_scenario_counterexample :
    (((((insert .leaf 10).bind fun t => insert t 20).bind fun t =>
        insert t 30).bind fun t => attachMessageToPrevious t 20).bind fun t =>
        attachMessageToPrevious t 30).map (fun t => nodeFlags t 30) =
      some (some (true, false)) := by
  decide

/-- Claim C1 amended: in the same scenario,
`attach_message_to_previous(20)` sets 10's `have_next` and 20's
`have_previous`; `attach_message_to_previous(30)` sets 20's `have_next`
and 30's `have_previous`; 30's `have_next` remains false, since 20's
`have_next` was still false when consulted. -/
theorem adjacency_scenario_flags :
    (((((insert .leaf 10).bind fun t => insert t 20).bind fun t =>
        insert t 30).bind fun t => attachMessageToPrevious t 20).bind fun t =>
        attachMessageToPrevious t 30).map
      (fun t => (nodeFlags t 10, nodeFlags t 20, nodeFlags t 30)) =
      some (some (false, true), some (true, true), some (true, false)) := by
  decide

end OrderedMessages

/-- Claim C3 counterexample: at `hardware_concurrency = 1000` the code
computes 1250 slots while `clamp(h * 5 / 4, 8, 1000)` gives 1000, so the
size both differs from the claimed formula and exceeds 1000. -/
theorem pool_size_formula_counterexample :
    multiImplPoolSize 1000 = 1250 ∧ specPoolSize 1000 = 1000 ∧
      ¬ multiImplPoolSize 1000 ≤ 1000 := by
  decide

/-- Claim C3 amended: the slot count fixed on first `create_client` equals
`clamp(hardware_concurrency, 8, 1000) * 5 / 4`
(that is, `min (max h 8) 1000 * 5 / 4`): it is never below 10 and never
above 1250. -/
theorem pool_size_bounds (h : ℕ) :
    multiImplPoolSize h = min (max h 8) 1000 * 5 / 4 ∧
      10 ≤ multiImplPoolSize h ∧ multiImplPoolSize h ≤ 1250 := by
  have hcl : clampNat h 8 1000 = min (max h 8) 1000 := by
    unfold clampNat
    split
    · omega
    · split
      · omega
      · omega
  unfold multiImplPoolSize
  rw [hcl]
  refine ⟨rfl, ?_, ?_⟩ <;> omega

/-- Claim C9: `send` to a client id absent from the binding map (never
created, or erased after its terminal sentinel) appends to the output
queue an error response with code 400 carrying that client and request
id, returns, and leaves the binding map and the forwarded requests
unchanged. -/
theorem send_unknown_client_error (s : ClientManagerImpl)
    (client_id request_id request : ℕ)
    (h : s.impls.lookup client_id = none) :
    s.send client_id request_id request =
      { impls := s.impls,
        outputQueue := s.outputQueue ++
          [⟨client_id, request_id,
            TdObject.error 400 "Invalid TDLib instance specified"⟩],
        forwarded := s.forwarded } := by
  unfold ClientManagerImpl.send
  rw [h]

/-- Witness for C9 at the empty manager state. -/
theorem send_unknown_client_error_witness :
    ClientManagerImpl.send ⟨[], [], []⟩ 1 2 3 =
      { impls := [],
        outputQueue := [⟨1, 2,
          TdObject.error 400 "Invalid TDLib instance specified"⟩],
        forwarded := [] } :=
  send_unknown_client_error ⟨[], [], []⟩ 1 2 3 (by decide)
